import Mathlib

/-!
Shallow embedding of `src/lib/mcscf/fci_rdm.c` (FCI reduced-density-matrix
kernels).  C `double` arithmetic is modelled exactly over `ℚ`; flat C arrays
of doubles are total functions `ℕ → ℚ` (reads outside the region a routine
actually touches never occur in the modelled calls); C `int` inputs are `ℤ`,
sizes and indices are `ℕ`.  Every routine of the source file that the claims
touch is transcribed below under its C name.
-/

/-- Flat array of doubles, modelled as a total function. -/
abbrev Vec := ℕ → ℚ

/-- Pointwise array write `arr[p] = v`. -/
def upd (f : Vec) (p : ℕ) (v : ℚ) : Vec := fun m => if m = p then v else f m

/-- C `for (i = 0; i < n; i++) body`, the body transforming a state. -/
def forL {α : Type} (n : ℕ) (f : ℕ → α → α) (s : α) : α :=
  (List.range n).foldl (fun t i => f i t) s

/-- Threshold `#define CSUMTHR 1e-28` (exact rational value of the literal). -/
def CSUMTHR : ℚ := 1e-28

/-- Block size `#define BUFBASE 320`. -/
def BUFBASE : ℕ := 320

/-- Constant `#define SQRT2 1.4142135623730950488` (the C source's decimal
literal, kept exactly as a rational). -/
def SQRT2 : ℚ := 1.4142135623730950488

/-- The compacted excitation record `_LinkT`: `addr` is the C
`unsigned int` destination, `a`/`i` the `unsigned char` orbital fields and
`sign` the signed `char` phase. -/
structure LinkT where
  addr : ℕ
  a : ℕ
  i : ℕ
  sign : ℤ
  deriving DecidableEq, Repr

def defaultLink : LinkT := ⟨0, 0, 0, 0⟩

/-- C conversion `int → unsigned char`: reduction modulo 2^8. -/
def wrap8 (x : ℤ) : ℕ := (x % 256).toNat

/-- C conversion `int → unsigned int`: reduction modulo 2^32. -/
def wrap32 (x : ℤ) : ℕ := (x % 4294967296).toNat

/-- C conversion `int → signed char` (two's-complement wrap into
`[-128, 128)`). -/
def wrapS8 (x : ℤ) : ℤ := (x + 128) % 256 - 128

/-- `compress_link`: cell `k*nlink + j` of the output (for `k < nstr`,
`j < nlink`) is filled from the input quadruple
`link_index[(k*nlink+j)*4 .. +3] = (a, i, str1, sign)`, each field narrowed
to the record's C type.  (The C writes exactly those cells; the output array
is the function below.) -/
def compress_link (link_index : ℕ → ℤ) (_norb nstr nlink : ℕ) : ℕ → LinkT :=
  fun m =>
    if m < nstr * nlink then
      { addr := wrap32 (link_index (m * 4 + 2))
        a := wrap8 (link_index (m * 4))
        i := wrap8 (link_index (m * 4 + 1))
        sign := wrapS8 (link_index (m * 4 + 3)) }
    else defaultLink

/-- `rdm2_a_t1`: for each record `tab[j]` of alpha string `stra_id`, add
(sign-adjusted) the run `pci[k] = ci0[str1*nstrb + k]`, `k < fillcnt`, into
slot `(i,a)` of every column of `t1`, accumulating the squared norm. -/
def rdm2_a_t1 (ci0 : Vec) (t1 : Vec) (fillcnt stra_id norb nstrb nlinka : ℕ)
    (clink_indexa : ℕ → LinkT) : Vec × ℚ :=
  forL nlinka (fun j st =>
    let e := clink_indexa (stra_id * nlinka + j)
    forL fillcnt (fun k st2 =>
      let c := ci0 (e.addr * nstrb + k)
      let p := e.i * norb + e.a + k * (norb * norb)
      (upd st2.1 p (if 0 < e.sign then st2.1 p + c else st2.1 p - c),
       st2.2 + c * c)) st) (t1, 0)

/-- `memset` of one `nnorb`-sized column of `t1`. -/
def zeroCol (t1 : Vec) (start len : ℕ) : Vec :=
  fun m => if start ≤ m ∧ m < start + len then 0 else t1 m

/-- `rdm2_0b_t1`: for each of `fillcnt` beta strings, zero the column and
scatter `sign * pci[str1]` (with `pci = ci0 + stra_id*nstrb`) into slot
`(i,a)`, accumulating the squared norm. -/
def rdm2_0b_t1 (ci0 : Vec) (t1 : Vec) (fillcnt stra_id norb nstrb nlinkb : ℕ)
    (tab : ℕ → LinkT) : Vec × ℚ :=
  forL fillcnt (fun str0 st =>
    forL nlinkb (fun j st2 =>
      let e := tab (str0 * nlinkb + j)
      let c := ci0 (stra_id * nstrb + e.addr)
      let p := str0 * (norb * norb) + e.i * norb + e.a
      (upd st2.1 p (st2.1 p + (e.sign : ℚ) * c), st2.2 + c * c))
      (zeroCol st.1 (str0 * (norb * norb)) (norb * norb), st.2)) (t1, 0)

/-- `kern_ms0_ab`: beta excitations first, then alpha excitations on top of
the same buffer; the two squared norms are summed. -/
def kern_ms0_ab (ci0 : Vec) (t1 : Vec) (fillcnt stra_id strb_id norb na nlink : ℕ)
    (clink_index : ℕ → LinkT) : Vec × ℚ :=
  let r0 := rdm2_0b_t1 ci0 t1 fillcnt stra_id norb na nlink
    (fun m => clink_index (strb_id * nlink + m))
  let r1 := rdm2_a_t1 (fun m => ci0 (strb_id + m)) r0.1 fillcnt stra_id norb na
    nlink clink_index
  (r1.1, r0.2 + r1.2)

/-- BLAS `dgemv('N', n, m, alpha, A, n, x, 1, 1, y, 1)` (modelled from the
BLAS contract, an external collaborator): `y[r] += alpha * sum_k A[r+k*n]*x[k]`
for `r < n`. -/
def dgemv (n m : ℕ) (alpha : ℚ) (A x y : Vec) : Vec :=
  fun r => if r < n then
    y r + alpha * ∑ k ∈ Finset.range m, A (r + k * n) * x k
  else y r

/-- BLAS `dsyrk('U', 'N', n, m, alpha, A, n, 1, C, n)` (modelled from the
BLAS contract): only the column-major upper triangle `C[i + j*n]`, `i ≤ j`,
receives `alpha * sum_k A[i+k*n]*A[j+k*n]`. -/
def dsyrk (n m : ℕ) (alpha : ℚ) (A C : Vec) : Vec :=
  fun q => if q % n ≤ q / n ∧ q / n < n then
    C q + alpha * ∑ k ∈ Finset.range m, A (q % n + k * n) * A (q / n + k * n)
  else C q

/-- BLAS `dgemm('N', 'T', n, n, m, alpha, A, n, B, n, 1, C, n)` (modelled
from the BLAS contract): every entry `C[i + j*n]` receives
`alpha * sum_k A[i+k*n]*B[j+k*n]`. -/
def dgemm_nt (n m : ℕ) (alpha : ℚ) (A B C : Vec) : Vec :=
  fun q => if q % n < n ∧ q / n < n then
    C q + alpha * ∑ k ∈ Finset.range m, A (q % n + k * n) * B (q / n + k * n)
  else C q

/-- Signature shared by all `dm12kernel` worker kernels:
`(rdm1, rdm2, bra, ket, fillcnt, stra_id, strb_id, norb, na, nb, nlinka,
nlinkb, clink_indexa, clink_indexb)`, returning the updated accumulators. -/
def Kern : Type :=
  Vec → Vec → Vec → Vec → ℕ → ℕ → ℕ → ℕ → ℕ → ℕ → ℕ → ℕ →
    (ℕ → LinkT) → (ℕ → LinkT) → Vec × Vec

/-- `FCIrdm12kern_ms0`: build the combined alpha+beta T1 from the ket
(the malloc'd scratch is fully initialised by `rdm2_0b_t1` before use, so it
is modelled as zero), then, only when `csum > CSUMTHR`, rank-1 accumulate
into rdm1 and `dsyrk`-accumulate into rdm2. -/
def FCIrdm12kern_ms0 : Kern := fun rdm1 rdm2 _bra ket fillcnt stra_id strb_id
    norb na _nb nlinka _nlinkb clink_indexa _clink_indexb =>
  let nnorb := norb * norb
  let r := kern_ms0_ab ket (fun _ => 0) fillcnt stra_id strb_id norb na nlinka
    clink_indexa
  if CSUMTHR < r.2 then
    (dgemv nnorb fillcnt 1 r.1 (fun k => ket (stra_id * na + strb_id + k)) rdm1,
     dsyrk nnorb fillcnt 1 r.1 rdm2)
  else (rdm1, rdm2)

/-- List of beta-block offsets `ib = 0, bufbase, 2*bufbase, … < nb`. -/
def blockList (nb bufbase : ℕ) : List ℕ :=
  (List.range ((nb + bufbase - 1) / bufbase)).map (fun t => t * bufbase)

/-- The accumulation phase of `FCIrdm12_drv`: for each beta block and each
alpha string, apply the kernel.  (The OpenMP workers' private buffers are
reduced by plain addition, which over exact rationals equals this sequential
accumulation.) -/
def drvAcc (kern : Kern) (bra ket : Vec) (norb na nb nlinka nlinkb : ℕ)
    (clinka clinkb : ℕ → LinkT) : Vec × Vec :=
  (blockList nb (min BUFBASE nb)).foldl (fun st ib =>
    (List.range na).foldl (fun st2 strk =>
      kern st2.1 st2.2 bra ket (min (min BUFBASE nb) (nb - ib)) strk ib
        norb na nb nlinka nlinkb clinka clinkb) st)
    ((fun _ => 0), (fun _ => 0))

/-- The driver's final symmetrization loop:
`for (i..n) for (j < i) M[j*n+i] = M[i*n+j]`. -/
def symmLoop (n : ℕ) (M : Vec) : Vec :=
  forL n (fun i Mi => forL i (fun j Mj => upd Mj (j * n + i) (Mj (i * n + j))) Mi) M

/-- `FCIrdm12_drv`: zero accumulators, compress both link tables, run the
blocked kernel sweep, and if `symm` mirror a triangle of rdm1 and rdm2. -/
def FCIrdm12_drv (kern : Kern) (bra ket : Vec) (norb na nb nlinka nlinkb : ℕ)
    (link_indexa link_indexb : ℕ → ℤ) (symm : Bool) : Vec × Vec :=
  let acc := drvAcc kern bra ket norb na nb nlinka nlinkb
    (compress_link link_indexa norb na nlinka)
    (compress_link link_indexb norb nb nlinkb)
  if symm then (symmLoop norb acc.1, symmLoop (norb * norb) acc.2) else acc

/-- `FCImake_rdm12_ms0`: ground-state ms=0 build; the driver is called with
the ket in both wavefunction slots and symmetrization on (the `bra`
argument is ignored). -/
def FCImake_rdm12_ms0 (_bra ket : Vec) (norb na nlink : ℕ)
    (link_index : ℕ → ℤ) : Vec × Vec :=
  FCIrdm12_drv FCIrdm12kern_ms0 ket ket norb na na nlink nlink
    link_index link_index true

/-- `fill0` of `FCIrdm12kern_spin0`. -/
def spin0fill0 (fillcnt stra_id strb_id : ℕ) : ℕ :=
  if strb_id + fillcnt < stra_id then fillcnt else stra_id - strb_id

/-- `fill1` of `FCIrdm12kern_spin0`. -/
def spin0fill1 (fillcnt stra_id strb_id : ℕ) : ℕ :=
  if strb_id + fillcnt < stra_id then fillcnt else stra_id - strb_id + 1

/-- The T1 buffer and squared norm built by `FCIrdm12kern_spin0` (both
branches: beta part over `fill0` columns, alpha part over `fill1` columns;
the explicit `memset` of column `fill0` is subsumed by the zero scratch). -/
def spin0T1 (ket : Vec) (fillcnt stra_id strb_id norb na nlinka : ℕ)
    (clink_indexa : ℕ → LinkT) : Vec × ℚ :=
  let r0 := rdm2_0b_t1 ket (fun _ => 0) (spin0fill0 fillcnt stra_id strb_id)
    stra_id norb na nlinka (fun m => clink_indexa (strb_id * nlinka + m))
  let r1 := rdm2_a_t1 (fun m => ket (strb_id + m)) r0.1
    (spin0fill1 fillcnt stra_id strb_id) stra_id norb na nlinka clink_indexa
  (r1.1, r0.2 + r1.2)

/-- `FCIrdm12kern_spin0`: bail out above the pair-space diagonal
(`stra_id < strb_id`); otherwise accumulate with factor 2, scaling the
buffer range `[fill0*nnorb, fill1*nnorb)` by `SQRT2` before the `dsyrk`. -/
def FCIrdm12kern_spin0 : Kern := fun rdm1 rdm2 _bra ket fillcnt stra_id strb_id
    norb na _nb nlinka _nlinkb clink_indexa _clink_indexb =>
  if stra_id < strb_id then (rdm1, rdm2) else
  let nnorb := norb * norb
  let f0 := spin0fill0 fillcnt stra_id strb_id
  let f1 := spin0fill1 fillcnt stra_id strb_id
  let r := spin0T1 ket fillcnt stra_id strb_id norb na nlinka clink_indexa
  if CSUMTHR < r.2 then
    (dgemv nnorb f1 2 r.1 (fun k => ket (stra_id * na + strb_id + k)) rdm1,
     dsyrk nnorb f1 2
       (fun m => if f0 * nnorb ≤ m ∧ m < f1 * nnorb then r.1 m * SQRT2 else r.1 m)
       rdm2)
  else (rdm1, rdm2)

/-- `FCImake_rdm12_spin0` (the `bra` argument is ignored). -/
def FCImake_rdm12_spin0 (_bra ket : Vec) (norb na nlink : ℕ)
    (link_index : ℕ → ℤ) : Vec × Vec :=
  FCIrdm12_drv FCIrdm12kern_spin0 ket ket norb na na nlink nlink
    link_index link_index true

/-- `FCItdm12kern_ms0`: transition-density kernel; T1 is built twice (bra
then ket), each guarded by `csum < CSUMTHR`, and the 2-RDM part is a full
(non-symmetric) `dgemm` outer product. -/
def FCItdm12kern_ms0 : Kern := fun tdm1 tdm2 bra ket fillcnt stra_id strb_id
    norb na _nb nlinka _nlinkb clink_indexa _clink_indexb =>
  let nnorb := norb * norb
  let r1 := kern_ms0_ab bra (fun _ => 0) fillcnt stra_id strb_id norb na nlinka
    clink_indexa
  if r1.2 < CSUMTHR then (tdm1, tdm2) else
  let r0 := kern_ms0_ab ket (fun _ => 0) fillcnt stra_id strb_id norb na nlinka
    clink_indexa
  if r0.2 < CSUMTHR then (tdm1, tdm2) else
  (dgemv nnorb fillcnt 1 r0.1 (fun k => bra (stra_id * na + strb_id + k)) tdm1,
   dgemm_nt nnorb fillcnt 1 r0.1 r1.1 tdm2)

/-- `FCItrans_rdm12_ms0`: transition build, no symmetrization. -/
def FCItrans_rdm12_ms0 (bra ket : Vec) (norb na nlink : ℕ)
    (link_index : ℕ → ℤ) : Vec × Vec :=
  FCIrdm12_drv FCItdm12kern_ms0 bra ket norb na na nlink nlink
    link_index link_index false

/-- `FCIrdm12kern_a`: alpha-channel-only ground-state kernel. -/
def FCIrdm12kern_a : Kern := fun rdm1 rdm2 _bra ket fillcnt stra_id strb_id
    norb _na nb nlinka _nlinkb clink_indexa _clink_indexb =>
  let nnorb := norb * norb
  let r := rdm2_a_t1 (fun m => ket (strb_id + m)) (fun _ => 0) fillcnt stra_id
    norb nb nlinka clink_indexa
  if CSUMTHR < r.2 then
    (dgemv nnorb fillcnt 1 r.1 (fun k => ket (stra_id * nb + strb_id + k)) rdm1,
     dsyrk nnorb fillcnt 1 r.1 rdm2)
  else (rdm1, rdm2)

/-- `FCIrdm12kern_b`: beta-channel-only ground-state kernel. -/
def FCIrdm12kern_b : Kern := fun rdm1 rdm2 _bra ket fillcnt stra_id strb_id
    norb _na nb _nlinka nlinkb _clink_indexa clink_indexb =>
  let nnorb := norb * norb
  let r := rdm2_0b_t1 ket (fun _ => 0) fillcnt stra_id norb nb nlinkb
    (fun m => clink_indexb (strb_id * nlinkb + m))
  if CSUMTHR < r.2 then
    (dgemv nnorb fillcnt 1 r.1 (fun k => ket (stra_id * nb + strb_id + k)) rdm1,
     dsyrk nnorb fillcnt 1 r.1 rdm2)
  else (rdm1, rdm2)

/-- `FCItdm12kern_a`: alpha-channel transition kernel. -/
def FCItdm12kern_a : Kern := fun tdm1 tdm2 bra ket fillcnt stra_id strb_id
    norb _na nb nlinka _nlinkb clink_indexa _clink_indexb =>
  let nnorb := norb * norb
  let r1 := rdm2_a_t1 (fun m => bra (strb_id + m)) (fun _ => 0) fillcnt stra_id
    norb nb nlinka clink_indexa
  if r1.2 < CSUMTHR then (tdm1, tdm2) else
  let r0 := rdm2_a_t1 (fun m => ket (strb_id + m)) (fun _ => 0) fillcnt stra_id
    norb nb nlinka clink_indexa
  if r0.2 < CSUMTHR then (tdm1, tdm2) else
  (dgemv nnorb fillcnt 1 r0.1 (fun k => bra (stra_id * nb + strb_id + k)) tdm1,
   dgemm_nt nnorb fillcnt 1 r0.1 r1.1 tdm2)

/-- `FCItdm12kern_b`: beta-channel transition kernel. -/
def FCItdm12kern_b : Kern := fun tdm1 tdm2 bra ket fillcnt stra_id strb_id
    norb _na nb _nlinka nlinkb _clink_indexa clink_indexb =>
  let nnorb := norb * norb
  let r1 := rdm2_0b_t1 bra (fun _ => 0) fillcnt stra_id norb nb nlinkb
    (fun m => clink_indexb (strb_id * nlinkb + m))
  if r1.2 < CSUMTHR then (tdm1, tdm2) else
  let r0 := rdm2_0b_t1 ket (fun _ => 0) fillcnt stra_id norb nb nlinkb
    (fun m => clink_indexb (strb_id * nlinkb + m))
  if r0.2 < CSUMTHR then (tdm1, tdm2) else
  (dgemv nnorb fillcnt 1 r0.1 (fun k => bra (stra_id * nb + strb_id + k)) tdm1,
   dgemm_nt nnorb fillcnt 1 r0.1 r1.1 tdm2)

/-- `FCItdm12kern_ab`: mixed alpha-bra / beta-ket transition kernel; only
the 2-RDM receives a (never symmetrized) outer product. -/
def FCItdm12kern_ab : Kern := fun tdm1 tdm2 bra ket fillcnt stra_id strb_id
    norb _na nb nlinka nlinkb clink_indexa clink_indexb =>
  let nnorb := norb * norb
  let r1 := rdm2_a_t1 (fun m => bra (strb_id + m)) (fun _ => 0) fillcnt stra_id
    norb nb nlinka clink_indexa
  if r1.2 < CSUMTHR then (tdm1, tdm2) else
  let r0 := rdm2_0b_t1 ket (fun _ => 0) fillcnt stra_id norb nb nlinkb
    (fun m => clink_indexb (strb_id * nlinkb + m))
  if r0.2 < CSUMTHR then (tdm1, tdm2) else
  (tdm1, dgemm_nt nnorb fillcnt 1 r0.1 r1.1 tdm2)

/-- The accumulation loop of `FCImake_rdm1a` (upper-triangle-only records
`a >= i`, summed over all beta columns). -/
def rdm1aLoop (ciket : Vec) (norb na nb nlinka : ℕ) (clink : ℕ → LinkT) : Vec :=
  forL na (fun str0 M =>
    forL nlinka (fun j M2 =>
      let e := clink (str0 * nlinka + j)
      let p := e.a * norb + e.i
      if e.i ≤ e.a then
        if 0 < e.sign then
          forL nb (fun k M3 =>
            upd M3 p (M3 p + ciket (str0 * nb + k) * ciket (e.addr * nb + k))) M2
        else
          forL nb (fun k M3 =>
            upd M3 p (M3 p - ciket (str0 * nb + k) * ciket (e.addr * nb + k))) M2
      else M2) M) (fun _ => 0)

/-- `FCImake_rdm1a`: direct symmetric alpha 1-RDM (the `cibra` argument is
ignored: `ci0 = ciket`); ends with the same mirror loop as the driver. -/
def FCImake_rdm1a (_cibra ciket : Vec) (norb na nb nlinka _nlinkb : ℕ)
    (link_indexa _link_indexb : ℕ → ℤ) : Vec :=
  symmLoop norb (rdm1aLoop ciket norb na nb nlinka
    (compress_link link_indexa norb na nlinka))

/-- The accumulation loop of `FCImake_rdm1b`. -/
def rdm1bLoop (ciket : Vec) (norb na nb nlinkb : ℕ) (clink : ℕ → LinkT) : Vec :=
  forL na (fun str0 M =>
    forL nb (fun k M2 =>
      forL nlinkb (fun j M3 =>
        let e := clink (k * nlinkb + j)
        let p := e.a * norb + e.i
        if e.i ≤ e.a then
          if 0 < e.sign then
            upd M3 p (M3 p + ciket (str0 * nb + e.addr) * ciket (str0 * nb + k))
          else
            upd M3 p (M3 p - ciket (str0 * nb + e.addr) * ciket (str0 * nb + k))
        else M3) M2) M) (fun _ => 0)

/-- `FCImake_rdm1b`: direct symmetric beta 1-RDM (the `cibra` argument is
ignored). -/
def FCImake_rdm1b (_cibra ciket : Vec) (norb na nb _nlinka nlinkb : ℕ)
    (_link_indexa link_indexb : ℕ → ℤ) : Vec :=
  symmLoop norb (rdm1bLoop ciket norb na nb nlinkb
    (compress_link link_indexb norb nb nlinkb))

/-- Trace of a flat `norb × norb` matrix. -/
def traceM (norb : ℕ) (M : Vec) : ℚ :=
  ∑ d ∈ Finset.range norb, M (d * norb + d)

/-! ### Basic lemmas about the loop combinators -/

lemma upd_apply (f : Vec) (p v m) : upd f p v m = if m = p then v else f m := rfl

lemma upd_same (f : Vec) (p v) : upd f p v p = v := by simp [upd]

lemma upd_ne (f : Vec) (p v m) (h : m ≠ p) : upd f p v m = f m := by simp [upd, h]

lemma upd_upd (f : Vec) (p v w) : upd (upd f p v) p w = upd f p w := by
  funext m; by_cases h : m = p <;> simp [upd, h]

lemma upd_self (f : Vec) (p) : upd f p (f p) = f := by
  funext m; by_cases h : m = p <;> simp [upd, h]

lemma forL_zero {α : Type} (f : ℕ → α → α) (s : α) : forL 0 f s = s := rfl

lemma forL_succ {α : Type} (n : ℕ) (f : ℕ → α → α) (s : α) :
    forL (n + 1) f s = f n (forL n f s) := by
  simp [forL, List.range_succ]

lemma flat_div (r c n : ℕ) (hc : c < n) : (r * n + c) / n = r := by
  have hn : 0 < n := Nat.pos_of_ne_zero (fun h => by simp [h] at hc)
  rw [add_comm, Nat.add_mul_div_right _ _ hn, Nat.div_eq_of_lt hc, zero_add]

lemma flat_mod (r c n : ℕ) (hc : c < n) : (r * n + c) % n = c := by
  rw [add_comm, Nat.add_mul_mod_self_right, Nat.mod_eq_of_lt hc]

lemma flat_eq_iff (r c r' c' n : ℕ) (hc : c < n) (hc' : c' < n) :
    r * n + c = r' * n + c' ↔ r = r' ∧ c = c' := by
  constructor
  · intro h
    have h1 : (r * n + c) / n = (r' * n + c') / n := by rw [h]
    have h2 : (r * n + c) % n = (r' * n + c') % n := by rw [h]
    rw [flat_div r c n hc, flat_div r' c' n hc'] at h1
    rw [flat_mod r c n hc, flat_mod r' c' n hc'] at h2
    exact ⟨h1, h2⟩
  · rintro ⟨rfl, rfl⟩; rfl

/-! ### Pointwise description of the symmetrization loop -/

lemma symmInner_aux (n i : ℕ) (hin : i < n) (M : Vec) : ∀ m, m ≤ i → ∀ q,
    forL m (fun j Mj => upd Mj (j * n + i) (Mj (i * n + j))) M q =
      if q % n = i ∧ q / n < m then M (i * n + q / n) else M q := by
  intro m
  induction m with
  | zero => intro _ q; simp [forL_zero]
  | succ m ih =>
    intro hm q
    have hmi : m < i := hm
    rw [forL_succ]
    by_cases hq : q = m * n + i
    · subst hq
      rw [upd_same, ih hmi.le (i * n + m)]
      have h1 : (i * n + m) % n = m := flat_mod i m n (hmi.trans hin)
      have h2 : (m * n + i) % n = i := flat_mod m i n hin
      have h3 : (m * n + i) / n = m := flat_div m i n hin
      rw [if_neg (by rw [h1]; exact fun hc => absurd hc.1 hmi.ne)]
      rw [if_pos (by rw [h2, h3]; exact ⟨rfl, Nat.lt_succ_self m⟩), h3]
    · rw [upd_ne _ _ _ _ hq, ih hmi.le q]
      by_cases hcond : q % n = i ∧ q / n < m
      · rw [if_pos hcond, if_pos ⟨hcond.1, hcond.2.trans (Nat.lt_succ_self m)⟩]
      · rw [if_neg hcond]
        by_cases hcond' : q % n = i ∧ q / n < m + 1
        · exfalso
          rcases hcond' with ⟨h1, h2⟩
          have hdm : q / n = m := by
            rcases Nat.lt_succ_iff_lt_or_eq.mp h2 with h | h
            · exact absurd ⟨h1, h⟩ hcond
            · exact h
          exact hq (by rw [← Nat.div_add_mod q n, hdm, h1, Nat.mul_comm])
        · rw [if_neg hcond']

lemma symmLoop_apply (n : ℕ) (M : Vec) (q : ℕ) :
    symmLoop n M q =
      if q / n < q % n ∧ q % n < n then M ((q % n) * n + q / n) else M q := by
  have main : ∀ s, s ≤ n → ∀ (M : Vec) (q : ℕ),
      forL s (fun i Mi =>
        forL i (fun j Mj => upd Mj (j * n + i) (Mj (i * n + j))) Mi) M q =
        if q / n < q % n ∧ q % n < s then M ((q % n) * n + q / n) else M q := by
    intro s
    induction s with
    | zero => intro _ M q; simp [forL_zero]
    | succ s ih =>
      intro hs M q
      have hsn : s < n := hs
      rw [forL_succ, symmInner_aux n s hsn _ s le_rfl q]
      by_cases hA : q % n = s ∧ q / n < s
      · rw [if_pos hA, ih hsn.le]
        have h1 : (s * n + q / n) % n = q / n := flat_mod s (q / n) n (hA.2.trans hsn)
        have h2 : (s * n + q / n) / n = s := flat_div s (q / n) n (hA.2.trans hsn)
        rw [if_neg (by rw [h1, h2]; exact fun hc => absurd hc.1 (Nat.lt_asymm hA.2))]
        rw [if_pos (by rw [hA.1]; exact ⟨hA.1 ▸ hA.2, Nat.lt_succ_self s⟩), hA.1]
      · rw [if_neg hA, ih hsn.le]
        by_cases hB : q / n < q % n ∧ q % n < s
        · rw [if_pos hB, if_pos ⟨hB.1, hB.2.trans (Nat.lt_succ_self s)⟩]
        · rw [if_neg hB]
          by_cases hC : q / n < q % n ∧ q % n < s + 1
          · exfalso
            rcases hC with ⟨h1, h2⟩
            rcases Nat.lt_succ_iff_lt_or_eq.mp h2 with h | h
            · exact hB ⟨h1, h⟩
            · exact hA ⟨h, h ▸ h1⟩
          · rw [if_neg hC]
  exact main n le_rfl M q

lemma symmLoop_symm (n : ℕ) (M : Vec) (r c : ℕ) (hr : r < n) (hc : c < n) :
    symmLoop n M (r * n + c) = symmLoop n M (c * n + r) := by
  rw [symmLoop_apply, symmLoop_apply, flat_div r c n hc, flat_mod r c n hc,
    flat_div c r n hr, flat_mod c r n hr]
  rcases Nat.lt_trichotomy r c with h | h | h
  · rw [if_pos ⟨h, hc⟩, if_neg (fun hx => Nat.lt_asymm h hx.1)]
  · subst h; rw [if_neg (fun hx => Nat.lt_irrefl r hx.1)]
  · rw [if_neg (fun hx => Nat.lt_asymm h hx.1), if_pos ⟨h, hr⟩]

/-! ### Concrete inputs used by counterexamples and witnesses -/

/-- Raw link table for the spec's 2-orbital scenario: for each of the two
alpha strings, the identity excitation with sign `+1` and the swap with sign
`-1` (quadruple order `(a, i, destination, sign)`). -/
def linkIdSwap : ℕ → ℤ :=
  fun m => (([0, 0, 0, 1, 1, 0, 1, -1, 1, 1, 1, 1, 0, 1, 0, -1] : List ℤ).getD m 0)

/-- The single-determinant coefficient vector `ci = [1, 0, 0, 0]`. -/
def ciSingle : Vec := fun m => if m = 0 then 1 else 0

/-- One-string link table with the single record `(a=1, i=0, dest=0, +1)`. -/
def linkUp : ℕ → ℤ := fun m => (([1, 0, 0, 1] : List ℤ).getD m 0)

/-- The all-ones coefficient vector. -/
def ciOne : Vec := fun _ => 1

/-- Two-string link table whose records both point at destination string 1:
`(a=0, i=0, dest=1, +1)` for each string. -/
def linkDest1 : ℕ → ℤ := fun m => (([0, 0, 1, 1, 0, 0, 1, 1] : List ℤ).getD m 0)

/-- Coefficient vector whose only nonzero entry is `ci[2] = 1e-14`, chosen so
that the accumulated block norm equals `CSUMTHR` exactly. -/
def ketTiny : Vec := fun m => if m = 2 then 1e-14 else 0

/-- The compacted form of `linkDest1`'s records. -/
def clinkDest1 : ℕ → LinkT := fun _ => ⟨1, 0, 0, 1⟩

/-! ### C2: symmetry of the driver output after symmetrization -/

/-- C2: for every input (any kernel, any coefficient vectors and link
tables), when the driver is run with symmetrization requested, the returned
1-RDM is symmetric on `[0,norb)²` and the returned 2-RDM, viewed as an
`nnorb × nnorb` matrix, is symmetric on `[0,nnorb)²`. -/
theorem FCIrdm12_drv_symm_symmetric (kern : Kern) (bra ket : Vec)
    (norb na nb nlinka nlinkb : ℕ) (la lb : ℕ → ℤ) (i j p q : ℕ)
    (hi : i < norb) (hj : j < norb) (hp : p < norb * norb) (hq : q < norb * norb) :
    (FCIrdm12_drv kern bra ket norb na nb nlinka nlinkb la lb true).1 (i * norb + j) =
      (FCIrdm12_drv kern bra ket norb na nb nlinka nlinkb la lb true).1 (j * norb + i) ∧
    (FCIrdm12_drv kern bra ket norb na nb nlinka nlinkb la lb true).2
        (p * (norb * norb) + q) =
      (FCIrdm12_drv kern bra ket norb na nb nlinka nlinkb la lb true).2
        (q * (norb * norb) + p) := by
  constructor
  · exact symmLoop_symm norb _ i j hi hj
  · exact symmLoop_symm (norb * norb) _ p q hp hq

/-- Witness for C2 at a concrete input (the ms0 kernel on a 2-orbital,
one-string system). -/
theorem FCIrdm12_drv_symm_symmetric_witness :
    (FCIrdm12_drv FCIrdm12kern_ms0 ciOne ciOne 2 1 1 1 1 linkUp linkUp true).1
        (0 * 2 + 1) =
      (FCIrdm12_drv FCIrdm12kern_ms0 ciOne ciOne 2 1 1 1 1 linkUp linkUp true).1
        (1 * 2 + 0) ∧
    (FCIrdm12_drv FCIrdm12kern_ms0 ciOne ciOne 2 1 1 1 1 linkUp linkUp true).2
        (0 * (2 * 2) + 1) =
      (FCIrdm12_drv FCIrdm12kern_ms0 ciOne ciOne 2 1 1 1 1 linkUp linkUp true).2
        (1 * (2 * 2) + 0) :=
  FCIrdm12_drv_symm_symmetric FCIrdm12kern_ms0 ciOne ciOne 2 1 1 1 1 linkUp linkUp
    0 1 0 1 (by decide) (by decide) (by decide) (by decide)

/-! ### C3: which triangle the symmetrization pass preserves -/

/-- C3 counterexample: on a concrete run (norb = 2, one string of each spin,
single record `(a=1, i=0, dest=0, +1)`, `ci = [1]`), the accumulation phase
leaves the row-major upper-triangle entry `rdm1[0][1] = 2` (the run without
symmetrization shows it), yet the symmetrized run returns `rdm1[0][1] = 0`:
the upper-triangular accumulated entries are overwritten, not preserved, so
the pass does not copy the row-major upper triangle into the lower one. -/
theorem FCIrdm12_drv_symm_upper_not_preserved :
    (FCIrdm12_drv FCIrdm12kern_ms0 ciOne ciOne 2 1 1 1 1 linkUp linkUp false).1 1 = 2 ∧
    (FCIrdm12_drv FCIrdm12kern_ms0 ciOne ciOne 2 1 1 1 1 linkUp linkUp true).1 1 = 0 := by
  constructor <;>
  norm_num [FCIrdm12_drv, drvAcc, blockList, FCIrdm12kern_ms0,
    kern_ms0_ab, rdm2_a_t1, rdm2_0b_t1, zeroCol, upd, forL, symmLoop, compress_link,
    wrap8, wrap32, wrapS8, dgemv, dsyrk, CSUMTHR, BUFBASE, linkUp, ciOne,
    List.range_succ, Finset.sum_range_succ, defaultLink]

/-- C3 amended: the driver's final symmetrization pass preserves the
row-major lower triangle (entries `rdm1[i][j]`, `i > j`) of the accumulated
matrices and mirrors it into the upper triangle; likewise for the
`nnorb × nnorb` view of rdm2.  (The run with `symm = 0` returns the raw
accumulated matrices, so it serves as the reference.) -/
theorem FCIrdm12_drv_symm_mirrors_lower (kern : Kern) (bra ket : Vec)
    (norb na nb nlinka nlinkb : ℕ) (la lb : ℕ → ℤ) (i j p q : ℕ)
    (hji : j < i) (hi : i < norb) (hqp : q < p) (hp : p < norb * norb) :
    ((FCIrdm12_drv kern bra ket norb na nb nlinka nlinkb la lb true).1 (i * norb + j) =
      (FCIrdm12_drv kern bra ket norb na nb nlinka nlinkb la lb false).1 (i * norb + j) ∧
     (FCIrdm12_drv kern bra ket norb na nb nlinka nlinkb la lb true).1 (j * norb + i) =
      (FCIrdm12_drv kern bra ket norb na nb nlinka nlinkb la lb false).1 (i * norb + j)) ∧
    ((FCIrdm12_drv kern bra ket norb na nb nlinka nlinkb la lb true).2
        (p * (norb * norb) + q) =
      (FCIrdm12_drv kern bra ket norb na nb nlinka nlinkb la lb false).2
        (p * (norb * norb) + q) ∧
     (FCIrdm12_drv kern bra ket norb na nb nlinka nlinkb la lb true).2
        (q * (norb * norb) + p) =
      (FCIrdm12_drv kern bra ket norb na nb nlinka nlinkb la lb false).2
        (p * (norb * norb) + q)) := by
  have hj : j < norb := hji.trans hi
  have hq : q < norb * norb := hqp.trans hp
  refine ⟨⟨?_, ?_⟩, ?_, ?_⟩
  · show symmLoop norb _ _ = _
    rw [symmLoop_apply, flat_div i j norb hj, flat_mod i j norb hj,
      if_neg (fun hx => Nat.lt_asymm hji hx.1)]
    rfl
  · show symmLoop norb _ _ = _
    rw [symmLoop_apply, flat_div j i norb hi, flat_mod j i norb hi, if_pos ⟨hji, hi⟩]
    rfl
  · show symmLoop (norb * norb) _ _ = _
    rw [symmLoop_apply, flat_div p q _ hq, flat_mod p q _ hq,
      if_neg (fun hx => Nat.lt_asymm hqp hx.1)]
    rfl
  · show symmLoop (norb * norb) _ _ = _
    rw [symmLoop_apply, flat_div q p _ hp, flat_mod q p _ hp, if_pos ⟨hqp, hp⟩]
    rfl

/-- Witness for C3's amended statement at a concrete input. -/
theorem FCIrdm12_drv_symm_mirrors_lower_witness :
    ((FCIrdm12_drv FCIrdm12kern_ms0 ciOne ciOne 2 1 1 1 1 linkUp linkUp true).1
        (1 * 2 + 0) =
      (FCIrdm12_drv FCIrdm12kern_ms0 ciOne ciOne 2 1 1 1 1 linkUp linkUp false).1
        (1 * 2 + 0) ∧
     (FCIrdm12_drv FCIrdm12kern_ms0 ciOne ciOne 2 1 1 1 1 linkUp linkUp true).1
        (0 * 2 + 1) =
      (FCIrdm12_drv FCIrdm12kern_ms0 ciOne ciOne 2 1 1 1 1 linkUp linkUp false).1
        (1 * 2 + 0)) ∧
    ((FCIrdm12_drv FCIrdm12kern_ms0 ciOne ciOne 2 1 1 1 1 linkUp linkUp true).2
        (1 * (2 * 2) + 0) =
      (FCIrdm12_drv FCIrdm12kern_ms0 ciOne ciOne 2 1 1 1 1 linkUp linkUp false).2
        (1 * (2 * 2) + 0) ∧
     (FCIrdm12_drv FCIrdm12kern_ms0 ciOne ciOne 2 1 1 1 1 linkUp linkUp true).2
        (0 * (2 * 2) + 1) =
      (FCIrdm12_drv FCIrdm12kern_ms0 ciOne ciOne 2 1 1 1 1 linkUp linkUp false).2
        (1 * (2 * 2) + 0)) :=
  FCIrdm12_drv_symm_mirrors_lower FCIrdm12kern_ms0 ciOne ciOne 2 1 1 1 1
    linkUp linkUp 1 0 1 0 (by decide) (by decide) (by decide) (by decide)

/-! ### C1: the spec's concrete 2-orbital scenario -/

set_option maxHeartbeats 2000000 in
/-- C1 counterexample: on the spec's scenario (norb = 2, na = nb = 2, link
table `linkIdSwap` holding for each alpha string the identity excitation
with sign `+1` and the swap with sign `-1`, `ci = [1,0,0,0]`), the
ground-state ms=0 build does not return `rdm1[0][0] = 1` and does not
return `rdm2(0,0,0,0) = 1`, and `rdm2` is also nonzero away from
`(0,0,0,0)`: the claimed expected values are wrong for this code. -/
theorem make_rdm12_ms0_concrete_ne_spec :
    (FCImake_rdm12_ms0 ciSingle ciSingle 2 2 2 linkIdSwap).1 0 ≠ 1 ∧
    (FCImake_rdm12_ms0 ciSingle ciSingle 2 2 2 linkIdSwap).2 0 ≠ 1 ∧
    (FCImake_rdm12_ms0 ciSingle ciSingle 2 2 2 linkIdSwap).2 10 ≠ 0 := by
  refine ⟨?_, ?_, ?_⟩ <;>
  norm_num [FCImake_rdm12_ms0, FCIrdm12_drv, drvAcc, blockList, FCIrdm12kern_ms0,
    kern_ms0_ab, rdm2_a_t1, rdm2_0b_t1, zeroCol, upd, forL, symmLoop, compress_link,
    wrap8, wrap32, wrapS8, dgemv, dsyrk, CSUMTHR, BUFBASE, linkIdSwap, ciSingle,
    List.range_succ, Finset.sum_range_succ, defaultLink]

set_option maxHeartbeats 8000000 in
/-- C1 amended: on the spec's scenario the ground-state ms=0 build (with
bra = ket = ci) returns `rdm1 = [[2,0],[0,0]]` (both spin channels occupy
orbital 0, so the diagonal entry is 2, not 1), and an `rdm2` whose only
nonzero entries are `rdm2(0,0,0,0) = 4` (flat index 0) and
`rdm2(1,0,1,0) = 2` (flat index 10). -/
theorem make_rdm12_ms0_concrete :
    (List.range 4).map (FCImake_rdm12_ms0 ciSingle ciSingle 2 2 2 linkIdSwap).1 =
      [2, 0, 0, 0] ∧
    (List.range 16).map (FCImake_rdm12_ms0 ciSingle ciSingle 2 2 2 linkIdSwap).2 =
      [4, 0, 0, 0, 0, 0, 0, 0, 0, 0, 2, 0, 0, 0, 0, 0] := by
  constructor <;>
  norm_num [FCImake_rdm12_ms0, FCIrdm12_drv, drvAcc, blockList, FCIrdm12kern_ms0,
    kern_ms0_ab, rdm2_a_t1, rdm2_0b_t1, zeroCol, upd, forL, symmLoop, compress_link,
    wrap8, wrap32, wrapS8, dgemv, dsyrk, CSUMTHR, BUFBASE, linkIdSwap, ciSingle,
    List.range_succ, Finset.sum_range_succ, defaultLink]

/-! ### C4 counterexample: transition build with bra = ket vs ground build -/

/-- C4 counterexample: with norb = 2, one string of each spin, the single
record `(a=1, i=0, dest=0, +1)` and `ci = [1]`, the ms=0 transition build
with bra = ket returns `rdm1[0][1] = 2` while the ground-state ms=0 build
returns `rdm1[0][1] = 0`: the two builds do not agree on every entry,
because only the ground-state build symmetrizes (overwriting the strict
upper triangle of rdm1 with the lower one). -/
theorem trans_rdm12_ms0_ne_make_concrete :
    (FCItrans_rdm12_ms0 ciOne ciOne 2 1 1 linkUp).1 1 = 2 ∧
    (FCImake_rdm12_ms0 ciOne ciOne 2 1 1 linkUp).1 1 = 0 := by
  constructor <;>
  norm_num [FCImake_rdm12_ms0, FCItrans_rdm12_ms0, FCIrdm12_drv, drvAcc, blockList,
    FCIrdm12kern_ms0, FCItdm12kern_ms0, kern_ms0_ab, rdm2_a_t1, rdm2_0b_t1, zeroCol,
    upd, forL, symmLoop, compress_link, wrap8, wrap32, wrapS8, dgemv, dsyrk, dgemm_nt,
    CSUMTHR, BUFBASE, linkUp, ciOne, List.range_succ, Finset.sum_range_succ, defaultLink]

/-! ### C6 counterexample: behaviour exactly at the threshold -/

/-- C6 counterexample: a transition kernel call whose accumulated squared
norm equals `CSUMTHR` exactly (so it does not exceed the threshold), yet the
kernel accumulates into tdm2 (`tdm2[0]` becomes nonzero): the transition
kernels skip only when the norm is strictly below the threshold. -/
theorem tdm_kernel_accumulates_at_threshold :
    (kern_ms0_ab ketTiny (fun _ => 0) 2 0 0 1 2 1 clinkDest1).2 ≤ CSUMTHR ∧
    (FCItdm12kern_ms0 (fun _ => 0) (fun _ => 0) ketTiny ketTiny 2 0 0 1 2 2 1 1
      clinkDest1 clinkDest1).2 0 ≠ 0 := by
  constructor <;>
  norm_num [FCItdm12kern_ms0, kern_ms0_ab, rdm2_a_t1, rdm2_0b_t1, zeroCol,
    upd, forL, dgemv, dgemm_nt, CSUMTHR, ketTiny, clinkDest1,
    List.range_succ, Finset.sum_range_succ]

/-! ### C8: the link-table compactor preserves per-string groups -/

lemma cell_lt (k j nstr nlink : ℕ) (hk : k < nstr) (hj : j < nlink) :
    k * nlink + j < nstr * nlink :=
  calc k * nlink + j < k * nlink + nlink := Nat.add_lt_add_left hj _
    _ = (k + 1) * nlink := (Nat.succ_mul k nlink).symm
    _ ≤ nstr * nlink := Nat.mul_le_mul_right nlink hk

/-- Raw link table whose first quadruple has `a = 256`, outside the 8-bit
range of the compacted record. -/
def linkBig : ℕ → ℤ := fun m => if m = 0 then 256 else if m = 3 then 1 else 0

/-- C8 counterexample: compaction does not hold the input fields exactly for
every input: with the quadruple `(256, 0, 0, 1)` (one string, one record),
the stored `a` field is `0`, not the input value `256` — the 8-bit field
silently truncates. -/
theorem compress_link_truncates :
    ((compress_link linkBig 1 1 1 0).a : ℤ) ≠ linkBig 0 := by
  show ((compress_link linkBig 1 1 1 0).a : ℤ) ≠ 256
  norm_num [compress_link, wrap8, linkBig]

/-- C8 amended: for quadruples whose fields fit the record's C types
(`a, i ∈ [0, 256)`, `destination ∈ [0, 2^32)`, `sign ∈ [-128, 128)` — which
every valid link table satisfies), the compactor produces, for string `k`
and slot `j`, a record holding exactly the four fields of input quadruple
`k*nlink + j`, so groups are contiguous per string and input order is
preserved within each group.  (The embedding of `compress_link` is a pure
function of its inputs.) -/
theorem compress_link_preserves_quadruples (link : ℕ → ℤ) (norb nstr nlink k j : ℕ)
    (hk : k < nstr) (hj : j < nlink)
    (ha : 0 ≤ link ((k * nlink + j) * 4) ∧ link ((k * nlink + j) * 4) < 256)
    (hi : 0 ≤ link ((k * nlink + j) * 4 + 1) ∧ link ((k * nlink + j) * 4 + 1) < 256)
    (hd : 0 ≤ link ((k * nlink + j) * 4 + 2) ∧
      link ((k * nlink + j) * 4 + 2) < 4294967296)
    (hs : -128 ≤ link ((k * nlink + j) * 4 + 3) ∧
      link ((k * nlink + j) * 4 + 3) < 128) :
    ((compress_link link norb nstr nlink (k * nlink + j)).a : ℤ) =
        link ((k * nlink + j) * 4) ∧
    ((compress_link link norb nstr nlink (k * nlink + j)).i : ℤ) =
        link ((k * nlink + j) * 4 + 1) ∧
    ((compress_link link norb nstr nlink (k * nlink + j)).addr : ℤ) =
        link ((k * nlink + j) * 4 + 2) ∧
    (compress_link link norb nstr nlink (k * nlink + j)).sign =
        link ((k * nlink + j) * 4 + 3) := by
  have hm := cell_lt k j nstr nlink hk hj
  simp only [compress_link, if_pos hm, wrap8, wrap32, wrapS8]
  refine ⟨?_, ?_, ?_, ?_⟩ <;> omega

/-- Witness for C8's amended statement at a concrete in-range quadruple. -/
theorem compress_link_preserves_quadruples_witness :
    ((compress_link linkUp 2 1 1 (0 * 1 + 0)).a : ℤ) = linkUp ((0 * 1 + 0) * 4) ∧
    ((compress_link linkUp 2 1 1 (0 * 1 + 0)).i : ℤ) = linkUp ((0 * 1 + 0) * 4 + 1) ∧
    ((compress_link linkUp 2 1 1 (0 * 1 + 0)).addr : ℤ) =
        linkUp ((0 * 1 + 0) * 4 + 2) ∧
    (compress_link linkUp 2 1 1 (0 * 1 + 0)).sign = linkUp ((0 * 1 + 0) * 4 + 3) :=
  compress_link_preserves_quadruples linkUp 2 1 1 0 0 (by decide) (by decide)
    (by constructor <;> norm_num [linkUp]) (by constructor <;> norm_num [linkUp])
    (by constructor <;> norm_num [linkUp]) (by constructor <;> norm_num [linkUp])

/-! ### C9: the ground-state entry points ignore their bra argument -/

/-- C9: the ground-state entry points depend only on the ket: two calls of
`FCImake_rdm12_ms0`, `FCImake_rdm12_spin0`, `FCImake_rdm1a` or
`FCImake_rdm1b` differing only in the bra/cibra argument return identical
results (the C bodies never read `bra`/`cibra`). -/
theorem ground_state_entries_ignore_bra (bra1 bra2 ket : Vec)
    (norb na nb nlink nlinka nlinkb : ℕ) (link linka linkb : ℕ → ℤ) :
    FCImake_rdm12_ms0 bra1 ket norb na nlink link =
      FCImake_rdm12_ms0 bra2 ket norb na nlink link ∧
    FCImake_rdm12_spin0 bra1 ket norb na nlink link =
      FCImake_rdm12_spin0 bra2 ket norb na nlink link ∧
    FCImake_rdm1a bra1 ket norb na nb nlinka nlinkb linka linkb =
      FCImake_rdm1a bra2 ket norb na nb nlinka nlinkb linka linkb ∧
    FCImake_rdm1b bra1 ket norb na nb nlinka nlinkb linka linkb =
      FCImake_rdm1b bra2 ket norb na nb nlinka nlinkb linka linkb :=
  ⟨rfl, rfl, rfl, rfl⟩

/-! ### C10: field widths and wrapping of the compacted record -/

/-- C10: the compacted record stores `a`, `i` in 8-bit unsigned fields,
`addr` in a 32-bit unsigned field and `sign` in a signed 8-bit field: each
stored field is the input reduced modulo `2^8` (resp. `2^32`, resp. wrapped
into `[-128,128)`), no error is raised, and extraction returns the original
quadruple exactly if and only if `a, i ∈ [0,256)`, the destination lies in
`[0, 2^32)` and the sign is representable in a signed byte. -/
theorem compress_link_field_wrap (link : ℕ → ℤ) (norb nstr nlink k j : ℕ)
    (hk : k < nstr) (hj : j < nlink) :
    ((compress_link link norb nstr nlink (k * nlink + j)).a < 256 ∧
     ((compress_link link norb nstr nlink (k * nlink + j)).a : ℤ) % 256 =
        link ((k * nlink + j) * 4) % 256) ∧
    ((compress_link link norb nstr nlink (k * nlink + j)).i < 256 ∧
     ((compress_link link norb nstr nlink (k * nlink + j)).i : ℤ) % 256 =
        link ((k * nlink + j) * 4 + 1) % 256) ∧
    ((compress_link link norb nstr nlink (k * nlink + j)).addr < 4294967296 ∧
     ((compress_link link norb nstr nlink (k * nlink + j)).addr : ℤ) % 4294967296 =
        link ((k * nlink + j) * 4 + 2) % 4294967296) ∧
    (-128 ≤ (compress_link link norb nstr nlink (k * nlink + j)).sign ∧
     (compress_link link norb nstr nlink (k * nlink + j)).sign < 128 ∧
     (compress_link link norb nstr nlink (k * nlink + j)).sign % 256 =
        link ((k * nlink + j) * 4 + 3) % 256) ∧
    ((((compress_link link norb nstr nlink (k * nlink + j)).a : ℤ) =
          link ((k * nlink + j) * 4) ∧
      ((compress_link link norb nstr nlink (k * nlink + j)).i : ℤ) =
          link ((k * nlink + j) * 4 + 1) ∧
      ((compress_link link norb nstr nlink (k * nlink + j)).addr : ℤ) =
          link ((k * nlink + j) * 4 + 2) ∧
      (compress_link link norb nstr nlink (k * nlink + j)).sign =
          link ((k * nlink + j) * 4 + 3)) ↔
     (0 ≤ link ((k * nlink + j) * 4) ∧ link ((k * nlink + j) * 4) < 256 ∧
      0 ≤ link ((k * nlink + j) * 4 + 1) ∧ link ((k * nlink + j) * 4 + 1) < 256 ∧
      0 ≤ link ((k * nlink + j) * 4 + 2) ∧
        link ((k * nlink + j) * 4 + 2) < 4294967296 ∧
      -128 ≤ link ((k * nlink + j) * 4 + 3) ∧
        link ((k * nlink + j) * 4 + 3) < 128)) := by
  have hm := cell_lt k j nstr nlink hk hj
  simp only [compress_link, if_pos hm, wrap8, wrap32, wrapS8]
  refine ⟨⟨?_, ?_⟩, ⟨?_, ?_⟩, ⟨?_, ?_⟩, ⟨?_, ?_, ?_⟩, ?_⟩ <;> omega

/-- Witness for C10 at a concrete record (including an out-of-range check
through the iff's negative direction being inapplicable: here all fields fit
and the record round-trips). -/
theorem compress_link_field_wrap_witness :
    ((compress_link linkBig 1 1 1 (0 * 1 + 0)).a < 256 ∧
     ((compress_link linkBig 1 1 1 (0 * 1 + 0)).a : ℤ) % 256 =
        linkBig ((0 * 1 + 0) * 4) % 256) ∧
    ((compress_link linkBig 1 1 1 (0 * 1 + 0)).i < 256 ∧
     ((compress_link linkBig 1 1 1 (0 * 1 + 0)).i : ℤ) % 256 =
        linkBig ((0 * 1 + 0) * 4 + 1) % 256) ∧
    ((compress_link linkBig 1 1 1 (0 * 1 + 0)).addr < 4294967296 ∧
     ((compress_link linkBig 1 1 1 (0 * 1 + 0)).addr : ℤ) % 4294967296 =
        linkBig ((0 * 1 + 0) * 4 + 2) % 4294967296) ∧
    (-128 ≤ (compress_link linkBig 1 1 1 (0 * 1 + 0)).sign ∧
     (compress_link linkBig 1 1 1 (0 * 1 + 0)).sign < 128 ∧
     (compress_link linkBig 1 1 1 (0 * 1 + 0)).sign % 256 =
        linkBig ((0 * 1 + 0) * 4 + 3) % 256) ∧
    ((((compress_link linkBig 1 1 1 (0 * 1 + 0)).a : ℤ) =
          linkBig ((0 * 1 + 0) * 4) ∧
      ((compress_link linkBig 1 1 1 (0 * 1 + 0)).i : ℤ) =
          linkBig ((0 * 1 + 0) * 4 + 1) ∧
      ((compress_link linkBig 1 1 1 (0 * 1 + 0)).addr : ℤ) =
          linkBig ((0 * 1 + 0) * 4 + 2) ∧
      (compress_link linkBig 1 1 1 (0 * 1 + 0)).sign =
          linkBig ((0 * 1 + 0) * 4 + 3)) ↔
     (0 ≤ linkBig ((0 * 1 + 0) * 4) ∧ linkBig ((0 * 1 + 0) * 4) < 256 ∧
      0 ≤ linkBig ((0 * 1 + 0) * 4 + 1) ∧ linkBig ((0 * 1 + 0) * 4 + 1) < 256 ∧
      0 ≤ linkBig ((0 * 1 + 0) * 4 + 2) ∧
        linkBig ((0 * 1 + 0) * 4 + 2) < 4294967296 ∧
      -128 ≤ linkBig ((0 * 1 + 0) * 4 + 3) ∧
        linkBig ((0 * 1 + 0) * 4 + 3) < 128)) :=
  compress_link_field_wrap linkBig 1 1 1 0 0 (by decide) (by decide)

/-! ### C6: pruning below the norm threshold -/

/-- C6 amended: every ground-state kernel (`ms0`, `spin0`, `a`, `b`) leaves
the accumulators unchanged when its block's accumulated squared norm does
not exceed `CSUMTHR`; the transition kernels (`tdm_ms0`, `tdm_a`, `tdm_b`,
`tdm_ab`) skip when either side's norm is strictly below `CSUMTHR` (in
particular, a below-threshold bra-side norm alone suffices), but they do
accumulate when a norm equals the threshold exactly (their guards use `<`,
the ground-state guards use `>`). -/
theorem kernels_skip_below_threshold (rdm1 rdm2 bra ket : Vec)
    (fillcnt stra strb norb na nb nlinka nlinkb : ℕ) (clinka clinkb : ℕ → LinkT) :
    ((kern_ms0_ab ket (fun _ => 0) fillcnt stra strb norb na nlinka clinka).2 ≤
        CSUMTHR →
      FCIrdm12kern_ms0 rdm1 rdm2 bra ket fillcnt stra strb norb na nb nlinka
        nlinkb clinka clinkb = (rdm1, rdm2)) ∧
    ((spin0T1 ket fillcnt stra strb norb na nlinka clinka).2 ≤ CSUMTHR →
      FCIrdm12kern_spin0 rdm1 rdm2 bra ket fillcnt stra strb norb na nb nlinka
        nlinkb clinka clinkb = (rdm1, rdm2)) ∧
    ((rdm2_a_t1 (fun m => ket (strb + m)) (fun _ => 0) fillcnt stra norb nb
        nlinka clinka).2 ≤ CSUMTHR →
      FCIrdm12kern_a rdm1 rdm2 bra ket fillcnt stra strb norb na nb nlinka
        nlinkb clinka clinkb = (rdm1, rdm2)) ∧
    ((rdm2_0b_t1 ket (fun _ => 0) fillcnt stra norb nb nlinkb
        (fun m => clinkb (strb * nlinkb + m))).2 ≤ CSUMTHR →
      FCIrdm12kern_b rdm1 rdm2 bra ket fillcnt stra strb norb na nb nlinka
        nlinkb clinka clinkb = (rdm1, rdm2)) ∧
    (((kern_ms0_ab bra (fun _ => 0) fillcnt stra strb norb na nlinka clinka).2 <
          CSUMTHR ∨
      (kern_ms0_ab ket (fun _ => 0) fillcnt stra strb norb na nlinka clinka).2 <
          CSUMTHR) →
      FCItdm12kern_ms0 rdm1 rdm2 bra ket fillcnt stra strb norb na nb nlinka
        nlinkb clinka clinkb = (rdm1, rdm2)) ∧
    (((rdm2_a_t1 (fun m => bra (strb + m)) (fun _ => 0) fillcnt stra norb nb
          nlinka clinka).2 < CSUMTHR ∨
      (rdm2_a_t1 (fun m => ket (strb + m)) (fun _ => 0) fillcnt stra norb nb
          nlinka clinka).2 < CSUMTHR) →
      FCItdm12kern_a rdm1 rdm2 bra ket fillcnt stra strb norb na nb nlinka
        nlinkb clinka clinkb = (rdm1, rdm2)) ∧
    (((rdm2_0b_t1 bra (fun _ => 0) fillcnt stra norb nb nlinkb
          (fun m => clinkb (strb * nlinkb + m))).2 < CSUMTHR ∨
      (rdm2_0b_t1 ket (fun _ => 0) fillcnt stra norb nb nlinkb
          (fun m => clinkb (strb * nlinkb + m))).2 < CSUMTHR) →
      FCItdm12kern_b rdm1 rdm2 bra ket fillcnt stra strb norb na nb nlinka
        nlinkb clinka clinkb = (rdm1, rdm2)) ∧
    (((rdm2_a_t1 (fun m => bra (strb + m)) (fun _ => 0) fillcnt stra norb nb
          nlinka clinka).2 < CSUMTHR ∨
      (rdm2_0b_t1 ket (fun _ => 0) fillcnt stra norb nb nlinkb
          (fun m => clinkb (strb * nlinkb + m))).2 < CSUMTHR) →
      FCItdm12kern_ab rdm1 rdm2 bra ket fillcnt stra strb norb na nb nlinka
        nlinkb clinka clinkb = (rdm1, rdm2)) := by
  refine ⟨?_, ?_, ?_, ?_, ?_, ?_, ?_, ?_⟩
  · intro h
    simp only [FCIrdm12kern_ms0]
    rw [if_neg (not_lt.mpr h)]
  · intro h
    simp only [FCIrdm12kern_spin0]
    by_cases hab : stra < strb
    · rw [if_pos hab]
    · rw [if_neg hab, if_neg (not_lt.mpr h)]
  · intro h
    simp only [FCIrdm12kern_a]
    rw [if_neg (not_lt.mpr h)]
  · intro h
    simp only [FCIrdm12kern_b]
    rw [if_neg (not_lt.mpr h)]
  · intro h
    simp only [FCItdm12kern_ms0]
    rcases h with h | h
    · rw [if_pos h]
    · by_cases hb : (kern_ms0_ab bra (fun _ => 0) fillcnt stra strb norb na
          nlinka clinka).2 < CSUMTHR
      · rw [if_pos hb]
      · rw [if_neg hb, if_pos h]
  · intro h
    simp only [FCItdm12kern_a]
    rcases h with h | h
    · rw [if_pos h]
    · by_cases hb : (rdm2_a_t1 (fun m => bra (strb + m)) (fun _ => 0) fillcnt
          stra norb nb nlinka clinka).2 < CSUMTHR
      · rw [if_pos hb]
      · rw [if_neg hb, if_pos h]
  · intro h
    simp only [FCItdm12kern_b]
    rcases h with h | h
    · rw [if_pos h]
    · by_cases hb : (rdm2_0b_t1 bra (fun _ => 0) fillcnt stra norb nb nlinkb
          (fun m => clinkb (strb * nlinkb + m))).2 < CSUMTHR
      · rw [if_pos hb]
      · rw [if_neg hb, if_pos h]
  · intro h
    simp only [FCItdm12kern_ab]
    rcases h with h | h
    · rw [if_pos h]
    · by_cases hb : (rdm2_a_t1 (fun m => bra (strb + m)) (fun _ => 0) fillcnt
          stra norb nb nlinka clinka).2 < CSUMTHR
      · rw [if_pos hb]
      · rw [if_neg hb, if_pos h]

/-- Witness for C6's amended statement: with empty tables every norm is `0`,
below the threshold, and all eight kernels leave the accumulators
unchanged. -/
theorem kernels_skip_below_threshold_witness :
    (FCIrdm12kern_ms0 (fun _ => 0) (fun _ => 0) (fun _ => 0) (fun _ => 0)
        0 0 0 0 0 0 0 0 (fun _ => defaultLink) (fun _ => defaultLink) =
      ((fun _ => 0), (fun _ => 0))) ∧
    (FCIrdm12kern_spin0 (fun _ => 0) (fun _ => 0) (fun _ => 0) (fun _ => 0)
        0 0 0 0 0 0 0 0 (fun _ => defaultLink) (fun _ => defaultLink) =
      ((fun _ => 0), (fun _ => 0))) ∧
    (FCIrdm12kern_a (fun _ => 0) (fun _ => 0) (fun _ => 0) (fun _ => 0)
        0 0 0 0 0 0 0 0 (fun _ => defaultLink) (fun _ => defaultLink) =
      ((fun _ => 0), (fun _ => 0))) ∧
    (FCIrdm12kern_b (fun _ => 0) (fun _ => 0) (fun _ => 0) (fun _ => 0)
        0 0 0 0 0 0 0 0 (fun _ => defaultLink) (fun _ => defaultLink) =
      ((fun _ => 0), (fun _ => 0))) ∧
    (FCItdm12kern_ms0 (fun _ => 0) (fun _ => 0) (fun _ => 0) (fun _ => 0)
        0 0 0 0 0 0 0 0 (fun _ => defaultLink) (fun _ => defaultLink) =
      ((fun _ => 0), (fun _ => 0))) ∧
    (FCItdm12kern_a (fun _ => 0) (fun _ => 0) (fun _ => 0) (fun _ => 0)
        0 0 0 0 0 0 0 0 (fun _ => defaultLink) (fun _ => defaultLink) =
      ((fun _ => 0), (fun _ => 0))) ∧
    (FCItdm12kern_b (fun _ => 0) (fun _ => 0) (fun _ => 0) (fun _ => 0)
        0 0 0 0 0 0 0 0 (fun _ => defaultLink) (fun _ => defaultLink) =
      ((fun _ => 0), (fun _ => 0))) ∧
    (FCItdm12kern_ab (fun _ => 0) (fun _ => 0) (fun _ => 0) (fun _ => 0)
        0 0 0 0 0 0 0 0 (fun _ => defaultLink) (fun _ => defaultLink) =
      ((fun _ => 0), (fun _ => 0))) := by
  obtain ⟨h1, h2, h3, h4, h5, h6, h7, h8⟩ := kernels_skip_below_threshold
    (fun _ => 0) (fun _ => 0) (fun _ => 0) (fun _ => 0) 0 0 0 0 0 0 0 0
    (fun _ => defaultLink) (fun _ => defaultLink)
  have hz : (0 : ℚ) < CSUMTHR := by norm_num [CSUMTHR]
  refine ⟨h1 ?_, h2 ?_, h3 ?_, h4 ?_, h5 (Or.inl ?_), h6 (Or.inl ?_),
    h7 (Or.inl ?_), h8 (Or.inl ?_)⟩ <;>
  simp only [kern_ms0_ab, spin0T1, rdm2_a_t1, rdm2_0b_t1, spin0fill0, spin0fill1,
    forL, List.range_zero, List.foldl_nil] <;>
  norm_num [CSUMTHR]

/-! ### C5: the spin-restricted kernel and its lower-triangle sweep -/

lemma col_range (p k n f0 f1 : ℕ) (hp : p < n) :
    (f0 * n ≤ p + k * n ∧ p + k * n < f1 * n) ↔ (f0 ≤ k ∧ k < f1) := by
  have hn : 0 < n := Nat.pos_of_ne_zero (fun h => by simp [h] at hp)
  constructor
  · rintro ⟨h1, h2⟩
    constructor
    · by_contra hkf
      push_neg at hkf
      have hs : p + k * n < (k + 1) * n := by rw [Nat.succ_mul]; omega
      have : p + k * n < f0 * n := lt_of_lt_of_le hs (Nat.mul_le_mul_right n hkf)
      omega
    · have hkn : k * n < f1 * n := lt_of_le_of_lt (Nat.le_add_left _ _) h2
      exact Nat.lt_of_mul_lt_mul_right hkn
  · rintro ⟨h1, h2⟩
    constructor
    · exact le_trans (Nat.mul_le_mul_right n h1) (Nat.le_add_left _ _)
    · have hs : p + k * n < (k + 1) * n := by rw [Nat.succ_mul]; omega
      exact lt_of_lt_of_le hs (Nat.mul_le_mul_right n h2)

lemma spin0_scale_iff (fillcnt stra strb k : ℕ) (hba : strb ≤ stra)
    (hk : k < spin0fill1 fillcnt stra strb) :
    (spin0fill0 fillcnt stra strb ≤ k ∧ k < spin0fill1 fillcnt stra strb) ↔
      strb + k = stra := by
  simp only [spin0fill0, spin0fill1] at hk ⊢
  by_cases hc : strb + fillcnt < stra
  · simp only [if_pos hc] at hk ⊢; omega
  · simp only [if_neg hc] at hk ⊢; omega

/-- C5: the spin-restricted kernel computes only the lower triangle of the
`(stra, strb)` pair space: above the diagonal (`stra_id < strb_id`) it
returns with both accumulators completely unchanged; on or below the
diagonal (when the block passes the norm guard) it accumulates with scale
factor 2 on both the rank-1 (rdm1) and rank-k (rdm2) updates, the T1 column
whose beta string equals `stra_id` being weighted by `SQRT2` in the rank-k
update. -/
theorem FCIrdm12kern_spin0_lower_triangle (rdm1 rdm2 bra ket : Vec)
    (fillcnt stra strb norb na nb nlinka nlinkb : ℕ) (clinka clinkb : ℕ → LinkT) :
    (stra < strb →
      FCIrdm12kern_spin0 rdm1 rdm2 bra ket fillcnt stra strb norb na nb nlinka
        nlinkb clinka clinkb = (rdm1, rdm2)) ∧
    (strb ≤ stra →
      CSUMTHR < (spin0T1 ket fillcnt stra strb norb na nlinka clinka).2 →
      (∀ p, p < norb * norb →
        (FCIrdm12kern_spin0 rdm1 rdm2 bra ket fillcnt stra strb norb na nb
            nlinka nlinkb clinka clinkb).1 p =
          rdm1 p + 2 * ∑ k ∈ Finset.range (spin0fill1 fillcnt stra strb),
            (spin0T1 ket fillcnt stra strb norb na nlinka clinka).1
              (p + k * (norb * norb)) * ket (stra * na + strb + k)) ∧
      (∀ i j, i ≤ j → j < norb * norb →
        (FCIrdm12kern_spin0 rdm1 rdm2 bra ket fillcnt stra strb norb na nb
            nlinka nlinkb clinka clinkb).2 (i + j * (norb * norb)) =
          rdm2 (i + j * (norb * norb)) +
            2 * ∑ k ∈ Finset.range (spin0fill1 fillcnt stra strb),
              ((if strb + k = stra then SQRT2 else 1) *
                (spin0T1 ket fillcnt stra strb norb na nlinka clinka).1
                  (i + k * (norb * norb))) *
              ((if strb + k = stra then SQRT2 else 1) *
                (spin0T1 ket fillcnt stra strb norb na nlinka clinka).1
                  (j + k * (norb * norb))))) := by
  constructor
  · intro h
    simp only [FCIrdm12kern_spin0]
    rw [if_pos h]
  · intro hba hcs
    have hnlt : ¬ stra < strb := not_lt.mpr hba
    constructor
    · intro p hp
      simp only [FCIrdm12kern_spin0]
      rw [if_neg hnlt, if_pos hcs]
      simp only [dgemv]
      rw [if_pos hp]
    · intro i j hij hj
      have hi : i < norb * norb := lt_of_le_of_lt hij hj
      have hmod : (i + j * (norb * norb)) % (norb * norb) = i := by
        rw [add_comm]; exact flat_mod j i _ hi
      have hdiv : (i + j * (norb * norb)) / (norb * norb) = j := by
        rw [add_comm]; exact flat_div j i _ hi
      simp only [FCIrdm12kern_spin0]
      rw [if_neg hnlt, if_pos hcs]
      simp only [dsyrk]
      rw [hmod, hdiv, if_pos ⟨hij, hj⟩]
      congr 1
      congr 1
      refine Finset.sum_congr rfl (fun k hk => ?_)
      rw [Finset.mem_range] at hk
      have hcoli := (col_range i k (norb * norb) (spin0fill0 fillcnt stra strb)
        (spin0fill1 fillcnt stra strb) hi).trans
        (spin0_scale_iff fillcnt stra strb k hba hk)
      have hcolj := (col_range j k (norb * norb) (spin0fill0 fillcnt stra strb)
        (spin0fill1 fillcnt stra strb) hj).trans
        (spin0_scale_iff fillcnt stra strb k hba hk)
      by_cases hw : strb + k = stra
      · rw [if_pos (hcoli.mpr hw), if_pos (hcolj.mpr hw), if_pos hw]
        ring
      · rw [if_neg (fun hx => hw (hcoli.mp hx)), if_neg (fun hx => hw (hcolj.mp hx)),
          if_neg hw]
        ring

/-- Witness for C5: the above-diagonal bailout at a concrete call, and the
scaled accumulation formula at a concrete on-diagonal call with a
nontrivial norm. -/
theorem FCIrdm12kern_spin0_lower_triangle_witness :
    (FCIrdm12kern_spin0 (fun _ => 0) (fun _ => 0) (fun _ => 0) (fun _ => 0)
        1 0 1 1 1 1 1 1 (fun _ => defaultLink) (fun _ => defaultLink) =
      ((fun _ => 0), (fun _ => 0))) ∧
    ((FCIrdm12kern_spin0 (fun _ => 0) (fun _ => 0) ciOne ciOne
        1 0 0 1 2 2 1 1 clinkDest1 clinkDest1).1 0 =
      (fun _ => (0 : ℚ)) 0 + 2 * ∑ k ∈ Finset.range (spin0fill1 1 0 0),
        (spin0T1 ciOne 1 0 0 1 2 1 clinkDest1).1 (0 + k * (1 * 1)) *
          ciOne (0 * 2 + 0 + k)) ∧
    ((FCIrdm12kern_spin0 (fun _ => 0) (fun _ => 0) ciOne ciOne
        1 0 0 1 2 2 1 1 clinkDest1 clinkDest1).2 (0 + 0 * (1 * 1)) =
      (fun _ => (0 : ℚ)) (0 + 0 * (1 * 1)) +
        2 * ∑ k ∈ Finset.range (spin0fill1 1 0 0),
          ((if 0 + k = 0 then SQRT2 else 1) *
            (spin0T1 ciOne 1 0 0 1 2 1 clinkDest1).1 (0 + k * (1 * 1))) *
          ((if 0 + k = 0 then SQRT2 else 1) *
            (spin0T1 ciOne 1 0 0 1 2 1 clinkDest1).1 (0 + k * (1 * 1)))) := by
  have hcs : CSUMTHR < (spin0T1 ciOne 1 0 0 1 2 1 clinkDest1).2 := by
    norm_num [spin0T1, spin0fill0, spin0fill1, rdm2_a_t1, rdm2_0b_t1, zeroCol,
      upd, forL, List.range_succ, clinkDest1, ciOne, CSUMTHR]
  refine ⟨(FCIrdm12kern_spin0_lower_triangle (fun _ => 0) (fun _ => 0)
      (fun _ => 0) (fun _ => 0) 1 0 1 1 1 1 1 1
      (fun _ => defaultLink) (fun _ => defaultLink)).1 (by decide), ?_, ?_⟩
  · exact ((FCIrdm12kern_spin0_lower_triangle (fun _ => 0) (fun _ => 0) ciOne ciOne
      1 0 0 1 2 2 1 1 clinkDest1 clinkDest1).2 (by decide) hcs).1 0 (by decide)
  · exact ((FCIrdm12kern_spin0_lower_triangle (fun _ => 0) (fun _ => 0) ciOne ciOne
      1 0 0 1 2 2 1 1 clinkDest1 clinkDest1).2 (by decide) hcs).2 0 0
      (le_refl 0) (by decide)

/-! ### C7: trace of the direct 1-RDM builds -/

lemma forL_upd_add (p : ℕ) (t : ℕ → ℚ) (m : ℕ) (M : Vec) :
    forL m (fun k M3 => upd M3 p (M3 p + t k)) M =
      upd M p (M p + ∑ k ∈ Finset.range m, t k) := by
  induction m with
  | zero => rw [forL_zero, Finset.sum_range_zero, add_zero, upd_self]
  | succ m ih =>
    rw [forL_succ, ih, upd_same, upd_upd, Finset.sum_range_succ, add_assoc]

lemma forL_upd_sub (p : ℕ) (t : ℕ → ℚ) (m : ℕ) (M : Vec) :
    forL m (fun k M3 => upd M3 p (M3 p - t k)) M =
      upd M p (M p - ∑ k ∈ Finset.range m, t k) := by
  induction m with
  | zero => rw [forL_zero, Finset.sum_range_zero, sub_zero, upd_self]
  | succ m ih =>
    rw [forL_succ, ih, upd_same, upd_upd, Finset.sum_range_succ, sub_sub]

lemma traceM_upd_diag (norb d : ℕ) (hd : d < norb) (M : Vec) (v : ℚ) :
    traceM norb (upd M (d * norb + d) v) =
      traceM norb M - M (d * norb + d) + v := by
  unfold traceM
  have hmem : d ∈ Finset.range norb := Finset.mem_range.mpr hd
  rw [← Finset.sum_erase_add _ _ hmem,
    ← Finset.sum_erase_add (Finset.range norb) (fun e => M (e * norb + e)) hmem]
  have h1 : ∀ e ∈ (Finset.range norb).erase d,
      upd M (d * norb + d) v (e * norb + e) = M (e * norb + e) := by
    intro e he
    have hen : e < norb := Finset.mem_range.mp (Finset.mem_of_mem_erase he)
    refine upd_ne _ _ _ _ (fun hEq => ?_)
    exact Finset.ne_of_mem_erase he ((flat_eq_iff e e d d norb hen hd).mp hEq).1
  rw [Finset.sum_congr rfl h1, upd_same]
  ring

lemma traceM_upd_off (norb p : ℕ) (hoff : ∀ d, d < norb → p ≠ d * norb + d)
    (M : Vec) (v : ℚ) : traceM norb (upd M p v) = traceM norb M := by
  unfold traceM
  refine Finset.sum_congr rfl (fun d hd => ?_)
  have hdn : d < norb := Finset.mem_range.mp hd
  exact upd_ne _ _ _ _ (fun hEq => hoff d hdn hEq.symm)

lemma forL_funacc (T : Vec → ℚ) (g : ℕ → Vec → Vec) (c : ℕ → ℚ) (m : ℕ)
    (h : ∀ i, i < m → ∀ M, T (g i M) = T M + c i) (M0 : Vec) :
    T (forL m g M0) = T M0 + ∑ i ∈ Finset.range m, c i := by
  induction m with
  | zero => rw [forL_zero, Finset.sum_range_zero, add_zero]
  | succ m ih =>
    rw [forL_succ, h m (Nat.lt_succ_self m) _,
      ih (fun i hi M => h i (hi.trans (Nat.lt_succ_self m)) M),
      Finset.sum_range_succ, add_assoc]

lemma traceM_symmLoop (norb : ℕ) (M : Vec) :
    traceM norb (symmLoop norb M) = traceM norb M := by
  unfold traceM
  refine Finset.sum_congr rfl (fun d hd => ?_)
  rw [Finset.mem_range] at hd
  rw [symmLoop_apply, flat_mod d d norb hd, flat_div d d norb hd,
    if_neg (fun hx => lt_irrefl d hx.1)]

lemma traceM_zero (norb : ℕ) : traceM norb (fun _ => 0) = 0 := by
  simp [traceM]

/-- Number of diagonal (`a = i`) records in string `s`'s group. -/
def diagCount (clink : ℕ → LinkT) (nlink s : ℕ) : ℕ :=
  ((Finset.range nlink).filter
    (fun j => (clink (s * nlink + j)).a = (clink (s * nlink + j)).i)).card

/-- Validity of string `s`'s records for the trace theorem: orbital fields
in range, and every diagonal record is `(i, i, s, +1)`. -/
def goodRow (clink : ℕ → LinkT) (norb nlink s : ℕ) : Prop :=
  ∀ j, j < nlink →
    (clink (s * nlink + j)).a < norb ∧ (clink (s * nlink + j)).i < norb ∧
    ((clink (s * nlink + j)).a = (clink (s * nlink + j)).i →
      (clink (s * nlink + j)).addr = s ∧ (clink (s * nlink + j)).sign = 1)

lemma ite_sum_diag (nlink s : ℕ) (clink : ℕ → LinkT) (row : ℚ) :
    (∑ j ∈ Finset.range nlink,
      if (clink (s * nlink + j)).a = (clink (s * nlink + j)).i then row else 0) =
      (diagCount clink nlink s : ℚ) * row := by
  rw [← Finset.sum_filter, Finset.sum_const, nsmul_eq_mul]
  rfl

lemma rdm1a_row_trace (ciket : Vec) (norb nb nlinka : ℕ) (clink : ℕ → LinkT)
    (str0 N : ℕ) (hcount : diagCount clink nlinka str0 = N)
    (hgood : goodRow clink norb nlinka str0) (M : Vec) :
    traceM norb (forL nlinka (fun j M2 =>
      let e := clink (str0 * nlinka + j)
      let p := e.a * norb + e.i
      if e.i ≤ e.a then
        if 0 < e.sign then
          forL nb (fun k M3 =>
            upd M3 p (M3 p + ciket (str0 * nb + k) * ciket (e.addr * nb + k))) M2
        else
          forL nb (fun k M3 =>
            upd M3 p (M3 p - ciket (str0 * nb + k) * ciket (e.addr * nb + k))) M2
      else M2) M) = traceM norb M +
      (N : ℚ) * ∑ k ∈ Finset.range nb,
        ciket (str0 * nb + k) * ciket (str0 * nb + k) := by
  rw [forL_funacc (traceM norb) _
    (fun j => if (clink (str0 * nlinka + j)).a = (clink (str0 * nlinka + j)).i
      then ∑ k ∈ Finset.range nb, ciket (str0 * nb + k) * ciket (str0 * nb + k)
      else 0) nlinka ?_ M]
  · rw [ite_sum_diag nlinka str0 clink, hcount]
  · intro j hj M2
    obtain ⟨hA, hI, hDiag⟩ := hgood j hj
    dsimp only
    by_cases hia : (clink (str0 * nlinka + j)).i ≤ (clink (str0 * nlinka + j)).a
    · rw [if_pos hia]
      by_cases hd : (clink (str0 * nlinka + j)).a = (clink (str0 * nlinka + j)).i
      · obtain ⟨haddr, hsign⟩ := hDiag hd
        rw [if_pos (by rw [hsign]; norm_num :
          (0 : ℤ) < (clink (str0 * nlinka + j)).sign)]
        rw [forL_upd_add, haddr]
        have hp : (clink (str0 * nlinka + j)).a * norb +
            (clink (str0 * nlinka + j)).i =
            (clink (str0 * nlinka + j)).a * norb +
            (clink (str0 * nlinka + j)).a := by rw [hd]
        rw [hp, traceM_upd_diag norb _ hA, if_pos hd]
        ring
      · have hoff : ∀ d, d < norb →
            (clink (str0 * nlinka + j)).a * norb +
              (clink (str0 * nlinka + j)).i ≠ d * norb + d := by
          intro d hdn hEq
          obtain ⟨h1, h2⟩ := (flat_eq_iff _ _ d d norb hI hdn).mp hEq
          exact hd (h1.trans h2.symm)
        by_cases hs : (0 : ℤ) < (clink (str0 * nlinka + j)).sign
        · rw [if_pos hs, forL_upd_add, traceM_upd_off norb _ hoff, if_neg hd,
            add_zero]
        · rw [if_neg hs, forL_upd_sub, traceM_upd_off norb _ hoff, if_neg hd,
            add_zero]
    · rw [if_neg hia, if_neg (fun h => hia h.ge), add_zero]

lemma rdm1b_cell_trace (ciket : Vec) (norb nb nlinkb : ℕ) (clink : ℕ → LinkT)
    (str0 k N : ℕ) (hcount : diagCount clink nlinkb k = N)
    (hgood : goodRow clink norb nlinkb k) (M : Vec) :
    traceM norb (forL nlinkb (fun j M3 =>
      let e := clink (k * nlinkb + j)
      let p := e.a * norb + e.i
      if e.i ≤ e.a then
        if 0 < e.sign then
          upd M3 p (M3 p + ciket (str0 * nb + e.addr) * ciket (str0 * nb + k))
        else
          upd M3 p (M3 p - ciket (str0 * nb + e.addr) * ciket (str0 * nb + k))
      else M3) M) = traceM norb M +
      (N : ℚ) * (ciket (str0 * nb + k) * ciket (str0 * nb + k)) := by
  rw [forL_funacc (traceM norb) _
    (fun j => if (clink (k * nlinkb + j)).a = (clink (k * nlinkb + j)).i
      then ciket (str0 * nb + k) * ciket (str0 * nb + k) else 0) nlinkb ?_ M]
  · rw [ite_sum_diag nlinkb k clink, hcount]
  · intro j hj M2
    obtain ⟨hA, hI, hDiag⟩ := hgood j hj
    dsimp only
    by_cases hia : (clink (k * nlinkb + j)).i ≤ (clink (k * nlinkb + j)).a
    · rw [if_pos hia]
      by_cases hd : (clink (k * nlinkb + j)).a = (clink (k * nlinkb + j)).i
      · obtain ⟨haddr, hsign⟩ := hDiag hd
        rw [if_pos (by rw [hsign]; norm_num :
          (0 : ℤ) < (clink (k * nlinkb + j)).sign)]
        rw [haddr]
        have hp : (clink (k * nlinkb + j)).a * norb +
            (clink (k * nlinkb + j)).i =
            (clink (k * nlinkb + j)).a * norb +
            (clink (k * nlinkb + j)).a := by rw [hd]
        rw [hp, traceM_upd_diag norb _ hA, if_pos hd]
        ring
      · have hoff : ∀ d, d < norb →
            (clink (k * nlinkb + j)).a * norb +
              (clink (k * nlinkb + j)).i ≠ d * norb + d := by
          intro d hdn hEq
          obtain ⟨h1, h2⟩ := (flat_eq_iff _ _ d d norb hI hdn).mp hEq
          exact hd (h1.trans h2.symm)
        by_cases hs : (0 : ℤ) < (clink (k * nlinkb + j)).sign
        · rw [if_pos hs, traceM_upd_off norb _ hoff, if_neg hd, add_zero]
        · rw [if_neg hs, traceM_upd_off norb _ hoff, if_neg hd, add_zero]
    · rw [if_neg hia, if_neg (fun h => hia h.ge), add_zero]

/-- C7: under unit norm of the ket and valid single-excitation tables whose
every string carries exactly `N` diagonal records `(i, i, same string, +1)`
(with orbital fields inside `[0, norb)`), the traces of both direct
symmetric 1-RDM builds equal `N`, the electron count of the channel. -/
theorem make_rdm1_trace_eq_nelec (cibra ciket : Vec)
    (norb na nb nlinka nlinkb N : ℕ) (linka linkb : ℕ → ℤ)
    (hnorm : ∑ s ∈ Finset.range na, ∑ k ∈ Finset.range nb,
      ciket (s * nb + k) * ciket (s * nb + k) = 1)
    (hAc : ∀ s, s < na →
      diagCount (compress_link linka norb na nlinka) nlinka s = N)
    (hAg : ∀ s, s < na →
      goodRow (compress_link linka norb na nlinka) norb nlinka s)
    (hBc : ∀ s, s < nb →
      diagCount (compress_link linkb norb nb nlinkb) nlinkb s = N)
    (hBg : ∀ s, s < nb →
      goodRow (compress_link linkb norb nb nlinkb) norb nlinkb s) :
    traceM norb (FCImake_rdm1a cibra ciket norb na nb nlinka nlinkb linka linkb) =
      N ∧
    traceM norb (FCImake_rdm1b cibra ciket norb na nb nlinka nlinkb linka linkb) =
      N := by
  constructor
  · rw [FCImake_rdm1a, traceM_symmLoop, rdm1aLoop]
    rw [forL_funacc (traceM norb) _
      (fun str0 => (N : ℚ) * ∑ k ∈ Finset.range nb,
        ciket (str0 * nb + k) * ciket (str0 * nb + k)) na
      (fun str0 hstr M => rdm1a_row_trace ciket norb nb nlinka _ str0 N
        (hAc str0 hstr) (hAg str0 hstr) M) _]
    rw [traceM_zero, zero_add, ← Finset.mul_sum, hnorm, mul_one]
  · rw [FCImake_rdm1b, traceM_symmLoop, rdm1bLoop]
    rw [forL_funacc (traceM norb) _
      (fun str0 => (N : ℚ) * ∑ k ∈ Finset.range nb,
        ciket (str0 * nb + k) * ciket (str0 * nb + k)) na ?_ _]
    · rw [traceM_zero, zero_add, ← Finset.mul_sum, hnorm, mul_one]
    · intro str0 _ M
      rw [forL_funacc (traceM norb) _
        (fun k => (N : ℚ) * (ciket (str0 * nb + k) * ciket (str0 * nb + k))) nb
        (fun k hk M2 => rdm1b_cell_trace ciket norb nb nlinkb _ str0 k N
          (hBc k hk) (hBg k hk) M2) _]
      rw [← Finset.mul_sum]

/-- Witness for C7: one orbital, one string per channel, the single diagonal
record `(0, 0, 0, +1)` and a normalized one-entry ket give trace 1 = N. -/
theorem make_rdm1_trace_eq_nelec_witness :
    traceM 1 (FCImake_rdm1a ciSingle ciSingle 1 1 1 1 1 linkIdSwap linkIdSwap) =
      1 ∧
    traceM 1 (FCImake_rdm1b ciSingle ciSingle 1 1 1 1 1 linkIdSwap linkIdSwap) =
      1 := by
  have h := make_rdm1_trace_eq_nelec ciSingle ciSingle 1 1 1 1 1 1
    linkIdSwap linkIdSwap
    (by norm_num [ciSingle, Finset.sum_range_succ])
    (by decide) (by simp only [goodRow]; decide)
    (by decide) (by simp only [goodRow]; decide)
  exact_mod_cast h

/-! ### C4: transition build with bra = ket against the ground-state build -/

lemma foldl_rel {ι α : Type} (R : α → α → Prop) (f g : ι → α → α) :
    ∀ (l : List ι) (a b : α), R a b →
      (∀ i ∈ l, ∀ x y, R x y → R (f i x) (g i y)) →
      R (l.foldl (fun s i => f i s) a) (l.foldl (fun s i => g i s) b) := by
  intro l
  induction l with
  | nil => intro a b h _; exact h
  | cons hd tl ih =>
    intro a b hab hstep
    exact ih _ _ (hstep hd (List.mem_cons_self hd tl) a b hab)
      (fun i hi => hstep i (List.mem_cons_of_mem hd hi))

/-- Relation between the ground-state (`d`) and transition (`t`)
accumulator pairs maintained through the sweep: equal rdm1, equal rdm2 on
the written (column-major upper) triangle, zero elsewhere on the
ground-state side, zero out of range on both, and a symmetric transition
rdm2. -/
def InvLT (n : ℕ) (d t : Vec × Vec) : Prop :=
  d.1 = t.1 ∧
  (∀ q, q % n ≤ q / n → q / n < n → d.2 q = t.2 q) ∧
  (∀ q, q / n < q % n → d.2 q = 0) ∧
  (∀ q, n ≤ q / n → d.2 q = 0 ∧ t.2 q = 0) ∧
  (∀ r c, r < n → c < n → t.2 (r * n + c) = t.2 (c * n + r))

lemma ms0_tdm_step (ket : Vec) (fillcnt stra strb norb na nb nlinka nlinkb : ℕ)
    (clinka clinkb : ℕ → LinkT)
    (hcs : (kern_ms0_ab ket (fun _ => 0) fillcnt stra strb norb na nlinka
      clinka).2 ≠ CSUMTHR)
    (d t : Vec × Vec) (hInv : InvLT (norb * norb) d t) :
    InvLT (norb * norb)
      (FCIrdm12kern_ms0 d.1 d.2 ket ket fillcnt stra strb norb na nb nlinka
        nlinkb clinka clinkb)
      (FCItdm12kern_ms0 t.1 t.2 ket ket fillcnt stra strb norb na nb nlinka
        nlinkb clinka clinkb) := by
  obtain ⟨h1, h2, h3, h4, h5⟩ := hInv
  simp only [FCIrdm12kern_ms0, FCItdm12kern_ms0]
  rcases lt_trichotomy
    (kern_ms0_ab ket (fun _ => 0) fillcnt stra strb norb na nlinka clinka).2
    CSUMTHR with hlt | heq | hgt
  · rw [if_neg (not_lt.mpr hlt.le), if_pos hlt]
    exact ⟨h1, h2, h3, h4, h5⟩
  · exact absurd heq hcs
  · rw [if_pos hgt, if_neg (not_lt.mpr hgt.le), if_neg (not_lt.mpr hgt.le)]
    refine ⟨?_, ?_, ?_, ?_, ?_⟩
    · show dgemv _ _ _ _ _ d.1 = dgemv _ _ _ _ _ t.1
      rw [h1]
    · intro q hq1 hq2
      show dsyrk _ _ _ _ d.2 q = dgemm_nt _ _ _ _ _ t.2 q
      have hqm : q % (norb * norb) < norb * norb := lt_of_le_of_lt hq1 hq2
      simp only [dsyrk, dgemm_nt]
      rw [if_pos ⟨hq1, hq2⟩, if_pos ⟨hqm, hq2⟩, h2 q hq1 hq2]
    · intro q hq
      show dsyrk _ _ _ _ d.2 q = 0
      simp only [dsyrk]
      rw [if_neg (fun hx => absurd hq (not_lt.mpr hx.1))]
      exact h3 q hq
    · intro q hq
      constructor
      · show dsyrk _ _ _ _ d.2 q = 0
        simp only [dsyrk]
        rw [if_neg (fun hx => absurd hx.2 (not_lt.mpr hq))]
        exact (h4 q hq).1
      · show dgemm_nt _ _ _ _ _ t.2 q = 0
        simp only [dgemm_nt]
        rw [if_neg (fun hx => absurd hx.2 (not_lt.mpr hq))]
        exact (h4 q hq).2
    · intro r c hr hc
      show dgemm_nt _ _ _ _ _ t.2 _ = dgemm_nt _ _ _ _ _ t.2 _
      simp only [dgemm_nt]
      rw [flat_mod r c _ hc, flat_div r c _ hc, flat_mod c r _ hr,
        flat_div c r _ hr, if_pos ⟨hc, hr⟩, if_pos ⟨hr, hc⟩, h5 r c hr hc]
      congr 1
      congr 1
      exact Finset.sum_congr rfl (fun k _ => mul_comm _ _)

/-- C4 amended: when bra = ket and no block's accumulated squared norm
equals `CSUMTHR` exactly, the transition build returns the same rdm2 as the
ground-state build at every flat index, and the same rdm1 at every index of
the row-major diagonal-or-lower triangle (`q % norb ≤ q / norb`); the
strict upper triangle of rdm1 may differ because only the ground-state
build symmetrizes its output. -/
theorem trans_rdm12_ms0_bra_eq_ket_agrees (ket : Vec) (norb na nlink : ℕ)
    (link : ℕ → ℤ)
    (h : ∀ ib ∈ blockList na (min BUFBASE na), ∀ strk, strk < na →
      (kern_ms0_ab ket (fun _ => 0) (min (min BUFBASE na) (na - ib)) strk ib
        norb na nlink (compress_link link norb na nlink)).2 ≠ CSUMTHR) :
    (∀ q, (FCItrans_rdm12_ms0 ket ket norb na nlink link).2 q =
      (FCImake_rdm12_ms0 ket ket norb na nlink link).2 q) ∧
    (∀ q, q % norb ≤ q / norb →
      (FCItrans_rdm12_ms0 ket ket norb na nlink link).1 q =
      (FCImake_rdm12_ms0 ket ket norb na nlink link).1 q) := by
  have hacc : InvLT (norb * norb)
      (drvAcc FCIrdm12kern_ms0 ket ket norb na na nlink nlink
        (compress_link link norb na nlink) (compress_link link norb na nlink))
      (drvAcc FCItdm12kern_ms0 ket ket norb na na nlink nlink
        (compress_link link norb na nlink) (compress_link link norb na nlink)) := by
    unfold drvAcc
    refine foldl_rel (InvLT (norb * norb)) _ _ (blockList na (min BUFBASE na)) _ _
      ⟨rfl, fun q _ _ => rfl, fun q _ => rfl, fun q _ => ⟨rfl, rfl⟩,
        fun r c _ _ => rfl⟩ ?_
    intro ib hib x y hxy
    refine foldl_rel (InvLT (norb * norb)) _ _ (List.range na) x y hxy ?_
    intro strk hstrk x2 y2 hx2
    exact ms0_tdm_step ket (min (min BUFBASE na) (na - ib)) strk ib norb na na
      nlink nlink _ _ (h ib hib strk (List.mem_range.mp hstrk)) x2 y2 hx2
  obtain ⟨h1, h2, h3, h4, h5⟩ := hacc
  have htrans : FCItrans_rdm12_ms0 ket ket norb na nlink link =
      drvAcc FCItdm12kern_ms0 ket ket norb na na nlink nlink
        (compress_link link norb na nlink) (compress_link link norb na nlink) := rfl
  have hmake : FCImake_rdm12_ms0 ket ket norb na nlink link =
      (symmLoop norb (drvAcc FCIrdm12kern_ms0 ket ket norb na na nlink nlink
          (compress_link link norb na nlink) (compress_link link norb na nlink)).1,
       symmLoop (norb * norb) (drvAcc FCIrdm12kern_ms0 ket ket norb na na nlink
          nlink (compress_link link norb na nlink)
          (compress_link link norb na nlink)).2) := rfl
  rw [htrans, hmake]
  constructor
  · intro q
    show _ = symmLoop (norb * norb) _ q
    rw [symmLoop_apply]
    by_cases hcond : q / (norb * norb) < q % (norb * norb) ∧
        q % (norb * norb) < norb * norb
    · rw [if_pos hcond]
      obtain ⟨hc1, hc2⟩ := hcond
      have hdn : q / (norb * norb) < norb * norb := hc1.trans hc2
      have hpm : (q % (norb * norb) * (norb * norb) + q / (norb * norb)) %
          (norb * norb) = q / (norb * norb) := flat_mod _ _ _ hdn
      have hpd : (q % (norb * norb) * (norb * norb) + q / (norb * norb)) /
          (norb * norb) = q % (norb * norb) := flat_div _ _ _ hdn
      rw [h2 (q % (norb * norb) * (norb * norb) + q / (norb * norb))
        (by rw [hpm, hpd]; exact hc1.le) (by rw [hpd]; exact hc2)]
      rw [h5 (q % (norb * norb)) (q / (norb * norb)) hc2 hdn]
      rw [mul_comm (q / (norb * norb)) (norb * norb), Nat.div_add_mod]
    · rw [if_neg hcond]
      by_cases hq2 : q / (norb * norb) < norb * norb
      · have hn : 0 < norb * norb := Nat.pos_of_ne_zero (fun hz => by
          rw [hz] at hq2; exact Nat.not_lt_zero _ hq2)
        have hqm : q % (norb * norb) < norb * norb := Nat.mod_lt q hn
        have hle : q % (norb * norb) ≤ q / (norb * norb) := by
          rcases Nat.lt_or_ge (q / (norb * norb)) (q % (norb * norb)) with hx | hx
          · exact absurd ⟨hx, hqm⟩ hcond
          · exact hx
        exact (h2 q hle hq2).symm
      · rw [(h4 q (le_of_not_lt hq2)).1, (h4 q (le_of_not_lt hq2)).2]
  · intro q hq
    show _ = symmLoop norb _ q
    rw [symmLoop_apply, if_neg (fun hx => absurd hq (not_le.mpr hx.1)), h1]

/-- Witness for C4's amended statement on the spec's concrete 2-orbital
scenario (all block norms are 3 and 1, away from the threshold). -/
theorem trans_rdm12_ms0_bra_eq_ket_agrees_witness :
    ((FCItrans_rdm12_ms0 ciSingle ciSingle 2 2 2 linkIdSwap).2 10 =
      (FCImake_rdm12_ms0 ciSingle ciSingle 2 2 2 linkIdSwap).2 10) ∧
    ((FCItrans_rdm12_ms0 ciSingle ciSingle 2 2 2 linkIdSwap).1 2 =
      (FCImake_rdm12_ms0 ciSingle ciSingle 2 2 2 linkIdSwap).1 2) := by
  have h := trans_rdm12_ms0_bra_eq_ket_agrees ciSingle 2 2 2 linkIdSwap ?_
  · exact ⟨h.1 10, h.2 2 (by decide)⟩
  · intro ib hib strk hstrk
    have hb : blockList 2 (min BUFBASE 2) = [0] := rfl
    rw [hb] at hib
    simp only [List.mem_singleton] at hib
    subst hib
    interval_cases strk <;>
    · norm_num [kern_ms0_ab, rdm2_a_t1, rdm2_0b_t1, zeroCol, upd, forL,
        compress_link, wrap8, wrap32, wrapS8, CSUMTHR, BUFBASE, linkIdSwap,
        ciSingle, List.range_succ, defaultLink]
